import Mathlib

/-!
# Verification of the stroke curve library (Bezier / cubic Bezier / B-spline)

Shallow embedding of the library's data model and operations, translated from
the Rust source:

* `src/point_generic.rs` — `PointN<T, N>`: a point is a fixed-length array of
  scalars; add/sub are componentwise, scalar multiplication multiplies every
  component on the right.  We embed points of dimension `D` as `Fin D → ℝ`.
* `src/cubic_bezier.rs` — `CubicBezier` with `eval`, `eval_casteljau`, `split`,
  `derivative`, `dd`, `arclen`, `real_roots` (Cardano), `bounding_box`.
* `src/bezier.rs` — generic `Bezier` (list of control points) with `eval`
  (De Casteljau), `split` and `derivative`.
* `src/bspline.rs` — `BSpline::new` constructor validation and the
  `upper_bounds` binary search.

Pieces of the crate referenced from `src/` but whose defining file is not part
of the sources (the crate-root `EPSILON` constant, `QuadraticBezier`'s
evaluation and quadratic root solver) are modelled from the specification and
are marked `Modelled from the spec:` in their doc comments.
-/

open scoped BigOperators

/-! ## Points (`src/point_generic.rs`)

`PointN<T, N>` is a newtype over `[T; N]`; `Add`/`Sub` act componentwise and
`Mul<U>` multiplies each component by the scalar on the right.  `axis i`
returns component `i` and `squared_length` is the sum of squared components.
We embed a `D`-dimensional point as the function type `Fin D → ℝ`, whose
pointwise `Pi` addition/subtraction instances coincide with the Rust
componentwise loops. -/

/-- A point of dimension `D`: the embedding of `PointN<f64, D>`. -/
def Pt (D : ℕ) : Type := Fin D → ℝ

namespace Pt

variable {D : ℕ}

instance : AddCommGroup (Pt D) := Pi.addCommGroup

/-- `PointN::mul`: `res.0[i] = res.0[i] * rhs` — multiply every component by
the scalar on the right. -/
def mulS (p : Pt D) (s : ℝ) : Pt D := fun i => p i * s

/-- `Point::axis`: read component `i`. -/
def axis (p : Pt D) (i : Fin D) : ℝ := p i

/-- `PointN::squared_length`: `sqr_dist += self.0[i] * self.0[i]` over all
components. -/
def squared_length (p : Pt D) : ℝ := ∑ i, p i * p i

@[simp] lemma mulS_apply (p : Pt D) (s : ℝ) (i : Fin D) : p.mulS s i = p i * s := rfl

@[simp] lemma add_apply (p q : Pt D) (i : Fin D) : (p + q) i = p i + q i := rfl

@[simp] lemma sub_apply (p q : Pt D) (i : Fin D) : (p - q) i = p i - q i := rfl

@[simp] lemma axis_def (p : Pt D) (i : Fin D) : p.axis i = p i := rfl

@[simp] lemma zero_apply (i : Fin D) : (0 : Pt D) i = 0 := rfl

@[simp] lemma neg_apply (p : Pt D) (i : Fin D) : (-p) i = -(p i) := rfl

end Pt

/-! ## Cubic Bezier curves (`src/cubic_bezier.rs`) -/

/-- `CubicBezier<P>`: four named control points. -/
structure CubicBezier (D : ℕ) where
  start : Pt D
  ctrl1 : Pt D
  ctrl2 : Pt D
  stop : Pt D

namespace CubicBezier

variable {D : ℕ}

/-- `CubicBezier::eval`: direct (Bernstein closed-form) evaluation,
`start*(1-t)³ + ctrl1*3t(1-t)² + ctrl2*3t²(1-t) + end*t³`. -/
def eval (b : CubicBezier D) (t : ℝ) : Pt D :=
  b.start.mulS ((1 - t) * (1 - t) * (1 - t))
    + b.ctrl1.mulS (3 * t * (1 - t) * (1 - t))
    + b.ctrl2.mulS (3 * t * t * (1 - t))
    + b.stop.mulS (t * t * t)

/-- `CubicBezier::eval_casteljau`: the unrolled three-level De Casteljau
evaluation. -/
def eval_casteljau (b : CubicBezier D) (t : ℝ) : Pt D :=
  -- _1ab is the first iteration from first (a) to second (b) control point
  let ctrl_1ab := b.start + (b.ctrl1 - b.start).mulS t
  let ctrl_1bc := b.ctrl1 + (b.ctrl2 - b.ctrl1).mulS t
  let ctrl_1cd := b.ctrl2 + (b.stop - b.ctrl2).mulS t
  -- second iteration
  let ctrl_2ab := ctrl_1ab + (ctrl_1bc - ctrl_1ab).mulS t
  let ctrl_2bc := ctrl_1bc + (ctrl_1cd - ctrl_1bc).mulS t
  -- third iteration, final point on the curve
  let ctrl_3ab := ctrl_2ab + (ctrl_2bc - ctrl_2ab).mulS t
  ctrl_3ab

/-- `CubicBezier::split`: the same unrolled De Casteljau pyramid; the left
curve keeps the first point of every level, the right curve the last point of
every level. -/
def split (b : CubicBezier D) (t : ℝ) : CubicBezier D × CubicBezier D :=
  let ctrl_1ab := b.start + (b.ctrl1 - b.start).mulS t
  let ctrl_1bc := b.ctrl1 + (b.ctrl2 - b.ctrl1).mulS t
  let ctrl_1cd := b.ctrl2 + (b.stop - b.ctrl2).mulS t
  let ctrl_2ab := ctrl_1ab + (ctrl_1bc - ctrl_1ab).mulS t
  let ctrl_2bc := ctrl_1bc + (ctrl_1cd - ctrl_1bc).mulS t
  let ctrl_3ab := ctrl_2ab + (ctrl_2bc - ctrl_2ab).mulS t
  (⟨b.start, ctrl_1ab, ctrl_2ab, ctrl_3ab⟩,
   ⟨ctrl_3ab, ctrl_2bc, ctrl_1cd, b.stop⟩)

end CubicBezier

/-! ## Quadratic Bezier curves

`src/quadratic_bezier.rs` is not among the sources; the cubic's `derivative`
(which is in `src/cubic_bezier.rs`) constructs one from three points, and the
spec describes it as a three-point Bezier curve.  Its evaluation is modelled
from the spec. -/

/-- `QuadraticBezier<P>`: three named control points (spec §3: "Quadratic
Bezier curve: three points, produced only as a cubic curve's derivative
here"). -/
structure QuadraticBezier (D : ℕ) where
  start : Pt D
  ctrl : Pt D
  stop : Pt D

namespace QuadraticBezier

variable {D : ℕ}

/-- Modelled from the spec: evaluation of the three-point (degree-2) Bezier
curve in the Bernstein basis (glossary: basis `C(n,i)tⁱ(1−t)^{n−i}`), i.e.
`start*(1-t)² + ctrl*2t(1-t) + end*t²`.  The defining file
`src/quadratic_bezier.rs` is not part of the sources. -/
def eval (q : QuadraticBezier D) (t : ℝ) : Pt D :=
  q.start.mulS ((1 - t) * (1 - t)) + q.ctrl.mulS (2 * t * (1 - t)) + q.stop.mulS (t * t)

end QuadraticBezier

namespace CubicBezier

variable {D : ℕ}

/-- `CubicBezier::derivative`: the quadratic curve with points
`(ctrl1 - start)*3`, `(ctrl2 - ctrl1)*3`, `(end - ctrl2)*3`. -/
def derivative (b : CubicBezier D) : QuadraticBezier D :=
  ⟨(b.ctrl1 - b.start).mulS 3, (b.ctrl2 - b.ctrl1).mulS 3, (b.stop - b.ctrl2).mulS 3⟩

/-- `CubicBezier::dd`: the closed-form per-axis derivative sample.  The
coefficients are transcribed exactly as in the source; note that `c0` is
`-3.0 * t + 6.0 * t - 3.0` there (the first term uses `t`, not `t2`). -/
def dd (b : CubicBezier D) (t : ℝ) (i : Fin D) : ℝ :=
  let t2 := t * t
  let c0 := -3 * t + 6 * t - 3
  let c1 := 9 * t2 - 12 * t + 3
  let c2 := -9 * t2 + 6 * t
  let c3 := 3 * t2
  b.start.axis i * c0 + b.ctrl1.axis i * c1 + b.ctrl2.axis i * c2 + b.stop.axis i * c3

end CubicBezier

/-! ## Generic Bezier curves (`src/bezier.rs`)

`Bezier<P, N>` stores `N` control points; we embed the control-point array as
a list.  `eval` runs De Casteljau passes on a scratch copy: pass `i`
(`i = 1..=N`) replaces `p[j]` by `p[j]*(1-t) + p[j+1]*t` for `j < N - i`, so
after the passes `p[0]` holds the curve point.  Each pass reads only the
still-active prefix (entry `j+1` is overwritten after entry `j`), so a pass is
exactly `zipWith` of the active list with its own tail. -/

namespace Bezier

variable {D : ℕ}

/-- One De Casteljau pass: `p[j] = p[j]*(1-t) + p[j+1]*t` over the active
prefix, i.e. `zipWith` of the list with its tail (one element shorter). -/
def pass (t : ℝ) (ps : List (Pt D)) : List (Pt D) :=
  List.zipWith (fun a b => a.mulS (1 - t) + b.mulS t) ps ps.tail

@[simp] lemma pass_nil (t : ℝ) : pass (D := D) t [] = [] := rfl

@[simp] lemma pass_singleton (t : ℝ) (p : Pt D) : pass t [p] = [] := rfl

lemma pass_cons_cons (t : ℝ) (a b : Pt D) (l : List (Pt D)) :
    pass t (a :: b :: l) = (a.mulS (1 - t) + b.mulS t) :: pass t (b :: l) := by
  simp [pass]

@[simp] lemma length_pass (t : ℝ) (ps : List (Pt D)) :
    (pass t ps).length = ps.length - 1 := by
  cases ps with
  | nil => rfl
  | cons a l => simp [pass]

/-- `Bezier::eval`: iterate De Casteljau passes until one point remains
(`p[0]`).  The empty-curve value is junk (`0`), mirroring that `Bezier` with
zero points is outside the construction contract. -/
def eval (t : ℝ) : List (Pt D) → Pt D
  | [] => 0
  | [p] => p
  | a :: b :: l => eval t (pass t (a :: b :: l))
termination_by ps => ps.length
decreasing_by simp [length_pass]

/-- `Bezier::split`, left output: the loop stores
`left[i-1] = casteljau_points[0]` at the start of pass `i`, i.e. the first
point of every pyramid level: `left = [level₀[0], level₁[0], …]`.  This
recursion produces exactly that list (`levelₖ = passᵏ`). -/
def splitLeft (t : ℝ) : List (Pt D) → List (Pt D)
  | [] => []
  | [p] => [p]
  | a :: b :: l => a :: splitLeft t (pass t (a :: b :: l))
termination_by ps => ps.length
decreasing_by simp [length_pass]

/-- `Bezier::split`, right output: the loop stores
`right[N-i] = casteljau_points[N-i]` at the start of pass `i`; index `N-i` is
the last active entry of pyramid level `i-1`, so
`right = [level_{N-1}.last, …, level₁.last, level₀.last]`.  This recursion
produces exactly that list. -/
def splitRight (t : ℝ) : List (Pt D) → List (Pt D)
  | [] => []
  | [p] => [p]
  | a :: b :: l => splitRight t (pass t (a :: b :: l)) ++ [(a :: b :: l).getLastD 0]
termination_by ps => ps.length
decreasing_by simp [length_pass]

/-- `Bezier::split`: both halves. -/
def split (t : ℝ) (ps : List (Pt D)) : List (Pt D) × List (Pt D) :=
  (splitLeft t ps, splitRight t ps)

/-- `Bezier::derivative`: `new_points[i] = (control_points[i+1] -
control_points[i]) * (N as NativeFloat)` for `i = 0 .. N-2` (the loop breaks
at `i = len - 2`).  Note the factor is `N`, the number of control points. -/
def derivative (ps : List (Pt D)) : List (Pt D) :=
  List.zipWith (fun p q => (q - p).mulS (ps.length : ℝ)) ps ps.tail

end Bezier

/-! ## B-splines (`src/bspline.rs`) -/

/-- `BSpline<'a, P, F>`: degree, control points and knots. -/
structure BSpline (D : ℕ) where
  degree : ℕ
  control_points : List (Pt D)
  knots : List ℝ

namespace BSpline

variable {D : ℕ}

/-- `BSpline::new`: reject too few control points
(`control_points.len() <= degree`) and a knot count different from
`control_points.len() + degree + 1`, returning `None`; otherwise construct the
curve. -/
def new (degree : ℕ) (control_points : List (Pt D)) (knots : List ℝ) :
    Option (BSpline D) :=
  if control_points.length ≤ degree then
    none
  else if knots.length ≠ control_points.length + degree + 1 then
    none
  else
    some ⟨degree, control_points, knots⟩

end BSpline

/-! ### Claim C5 — `eval` agrees with `eval_casteljau` -/

/-- C5: for every cubic Bezier curve and every parameter `t`, the Bernstein
closed-form evaluation `eval` and the unrolled De Casteljau evaluation
`eval_casteljau` compute the same point (exactly, over exact real
arithmetic). -/
theorem c5_eval_equivalence {D : ℕ} (b : CubicBezier D) (t : ℝ) :
    b.eval t = b.eval_casteljau t := by
  funext i
  simp only [CubicBezier.eval, CubicBezier.eval_casteljau, Pt.add_apply, Pt.sub_apply,
    Pt.mulS_apply]
  ring

/-! ### Claim C9 — `BSpline::new` validation -/

/-- C9: `BSpline::new` returns `none` exactly when the input is malformed
(too few control points, or a knot count different from
`control_points.len() + degree + 1`), and a constructed B-spline (`some`)
otherwise; it is a total function, never a hard failure. -/
theorem c9_bspline_new_validation {D : ℕ} (degree : ℕ) (cps : List (Pt D))
    (knots : List ℝ) :
    (BSpline.new degree cps knots = none ↔
      cps.length ≤ degree ∨ knots.length ≠ cps.length + degree + 1)
    ∧ ((BSpline.new degree cps knots).isSome ↔
      degree < cps.length ∧ knots.length = cps.length + degree + 1) := by
  unfold BSpline.new
  split_ifs with h1 h2 <;> simp_all

/-! ### Claim C4 — `dd` versus `derivative().eval(t).axis` (code bug)

The source comment on `dd` states it is "a convenience function for
.derivative().eval(t).axis(n)", but its `c0` coefficient reads
`-3.0 * t + 6.0 * t - 3.0` where the derivative of `(1-t)³` requires
`-3.0 * t2 + 6.0 * t - 3.0`.  On the curve with `start = (1)` and all other
control points `(0)` (so only the `c0` term contributes), at `t = 1/2` the
code's `dd` yields `-3/2` while the derivative curve evaluates to `-3/4`. -/

/-- C4 (code bug, evaluated at the failing input): for the cubic with
`start = (1)`, `ctrl1 = ctrl2 = end = (0)` at `t = 1/2`, axis 0, `dd` returns
`-3/2`, the derivative curve evaluates to `-3/4`, and the two disagree. -/
theorem c4_dd_mismatch :
    CubicBezier.dd ⟨fun _ => 1, fun _ => 0, fun _ => 0, fun _ => 0⟩ (1/2) (0 : Fin 1)
        = -(3/2)
    ∧ Pt.axis ((CubicBezier.derivative
        ⟨fun _ => 1, fun _ => 0, fun _ => 0, fun _ => 0⟩).eval (1/2)) (0 : Fin 1)
        = -(3/4)
    ∧ CubicBezier.dd ⟨fun _ => 1, fun _ => 0, fun _ => 0, fun _ => 0⟩ (1/2) (0 : Fin 1)
        ≠ Pt.axis ((CubicBezier.derivative
        ⟨fun _ => 1, fun _ => 0, fun _ => 0, fun _ => 0⟩).eval (1/2)) (0 : Fin 1) := by
  refine ⟨?_, ?_, ?_⟩ <;>
    simp [CubicBezier.dd, CubicBezier.derivative, QuadraticBezier.eval, Pt.axis,
      Pt.mulS, Pt.sub_apply] <;> norm_num

/-! ### Claim C3 — generic `derivative()` scaling (code bug)

`Bezier::derivative` multiplies the control-point differences by `N` (the
number of control points), while its own doc comment states the derivative
weights are `n * (w_{i+1} - w_i)` with `n` the degree (`N - 1`), "so for a 3rd
degree curve, with four weights, … w0 = 3(w1-w0)".  For the two-point curve
`[(0), (1)]` the code's derivative curve is the constant `2`, while the parent
evaluation `t ↦ t` has derivative `1` everywhere. -/

/-- C3 (code bug, evaluated at the failing input): for the linear curve with
control points `(0), (1)`, the code's `derivative()` evaluates (at `t = 1/2`,
axis 0) to `2`, while the parent curve's actual tangent there is `1`. -/
theorem c3_derivative_scaling_bug :
    Pt.axis (Bezier.eval (1/2)
        (Bezier.derivative [(fun _ => 0 : Pt 1), fun _ => 1])) (0 : Fin 1) = 2
    ∧ HasDerivAt (fun u : ℝ =>
        Pt.axis (Bezier.eval u [(fun _ => 0 : Pt 1), fun _ => 1]) (0 : Fin 1))
        1 (1/2) := by
  constructor
  · simp [Bezier.derivative, Bezier.eval, Pt.axis, Pt.mulS, Pt.sub_apply]
  · have h : (fun u : ℝ =>
        Pt.axis (Bezier.eval u [(fun _ => 0 : Pt 1), fun _ => 1]) (0 : Fin 1))
        = fun u : ℝ => u := by
      funext u
      simp [Bezier.eval, Bezier.pass, Pt.axis, Pt.mulS, Pt.add_apply]
    rw [h]
    exact hasDerivAt_id _

/-! ## The polynomial root solver (`src/cubic_bezier.rs`, `real_roots`)

`real_roots(a,b,c,d)` finds the real roots of `a·t³ + b·t² + c·t + d`,
degrading by degree when leading coefficients are below the crate's fixed
`EPSILON`, and otherwise using Cardano's method.  `Real.sqrt`, `Real.rpow`,
`Real.arccos` and `Real.cos` make these definitions noncomputable, exactly
where the Rust code calls the corresponding `f64` intrinsics. -/

/-- Modelled from the spec: the crate-level fixed epsilon used for every
"≈ 0" comparison (spec §7: "All degeneracy and solver ≈0 comparisons use a
fixed epsilon, never exact equality").  Its defining file (the crate root) is
not among the sources and the spec fixes no numeric value; `1e-10` is used
here.  Every theorem below that depends on it only uses that it is a fixed
positive constant, and the counterexamples scale with it. -/
def EPSILON : ℝ := 1e-10

lemma EPSILON_pos : 0 < EPSILON := by norm_num [EPSILON]

/-- `f64::signum` for non-NaN input: `-1` for negatives (and `-0.0`), else
`1`.  The reals have a single zero, mapped to `1` as `+0.0` is. -/
noncomputable def signum (x : ℝ) : ℝ := if x < 0 then -1 else 1

/-- Cardano normalization `delta0 = (3*cn - bn*bn) / 9` with `bn = b/a`,
`cn = c/a`. -/
noncomputable def cardanoDelta0 (a b c : ℝ) : ℝ :=
  (3 * (c / a) - (b / a) * (b / a)) / 9

/-- Cardano normalization
`delta1 = (9*bn*cn - 27*dn - 2*bn*bn*bn) / 54`. -/
noncomputable def cardanoDelta1 (a b c d : ℝ) : ℝ :=
  (9 * (b / a) * (c / a) - 27 * (d / a) - 2 * (b / a) * (b / a) * (b / a)) / 54

/-- Cardano discriminant `delta_01 = delta0³ + delta1²` (as the products the
code writes). -/
noncomputable def cardanoDelta01 (a b c d : ℝ) : ℝ :=
  cardanoDelta0 a b c * cardanoDelta0 a b c * cardanoDelta0 a b c
    + cardanoDelta1 a b c d * cardanoDelta1 a b c d

/-- Cardano `s = signum(delta1 + √delta_01) * |delta1 + √delta_01|^(1/3)`. -/
noncomputable def cardanoS (a b c d : ℝ) : ℝ :=
  signum (cardanoDelta1 a b c d + Real.sqrt (cardanoDelta01 a b c d))
    * |cardanoDelta1 a b c d + Real.sqrt (cardanoDelta01 a b c d)| ^ ((1:ℝ) / 3)

/-- Cardano `t = signum(delta1 - √delta_01) * |delta1 - √delta_01|^(1/3)`. -/
noncomputable def cardanoT (a b c d : ℝ) : ℝ :=
  signum (cardanoDelta1 a b c d - Real.sqrt (cardanoDelta01 a b c d))
    * |cardanoDelta1 a b c d - Real.sqrt (cardanoDelta01 a b c d)| ^ ((1:ℝ) / 3)

/-- Trigonometric-branch angle `theta = acos(delta1 / √(-delta0³))`. -/
noncomputable def cardanoTheta (a b c d : ℝ) : ℝ :=
  Real.arccos (cardanoDelta1 a b c d
    / Real.sqrt (-(cardanoDelta0 a b c * cardanoDelta0 a b c * cardanoDelta0 a b c)))

namespace CubicBezier

/-- `CubicBezier::real_roots`: roots of `a·t³ + b·t² + c·t + d`.  Degrades to
the linear / quadratic / empty cases when `|a|`, `|b]`, `|c|` are below
`EPSILON`; otherwise Cardano's method, with the repeated-root guard
`|s - t| < EPSILON && |s + t| >= EPSILON` in the `delta_01 >= 0` branch and
the trigonometric branch (with the code's literal `pi = 3.141592`) when
`delta_01 < 0`. -/
noncomputable def real_roots (a b c d : ℝ) : List ℝ :=
  if |a| < EPSILON then
    if |b| < EPSILON then
      if |c| < EPSILON then
        -- no solutions
        []
      else
        -- is linear equation
        [-d / c]
    else
      -- is quadratic equation
      if c * c - 4 * b * d > 0 then
        [(-c - Real.sqrt (c * c - 4 * b * d)) / (2 * b),
         (-c + Real.sqrt (c * c - 4 * b * d)) / (2 * b)]
      else if |c * c - 4 * b * d| < EPSILON then
        [-c / (2 * b)]
      else
        []
  else
    -- is cubic equation -> use cardano's algorithm
    if 0 ≤ cardanoDelta01 a b c d then
      if |cardanoS a b c d - cardanoT a b c d| < EPSILON
          ∧ EPSILON ≤ |cardanoS a b c d + cardanoT a b c d| then
        [-(b / a) * (1 / 3) + (cardanoS a b c d + cardanoT a b c d),
         -(b / a) * (1 / 3) - (cardanoS a b c d + cardanoT a b c d) / 2]
      else
        [-(b / a) * (1 / 3) + (cardanoS a b c d + cardanoT a b c d)]
    else
      [2 * Real.sqrt (-cardanoDelta0 a b c) * Real.cos (cardanoTheta a b c d * (1 / 3))
         - b / a * (1 / 3),
       2 * Real.sqrt (-cardanoDelta0 a b c)
           * Real.cos ((cardanoTheta a b c d + 2 * 3.141592) * (1 / 3))
         - b / a * (1 / 3),
       2 * Real.sqrt (-cardanoDelta0 a b c)
           * Real.cos ((cardanoTheta a b c d + 4 * 3.141592) * (1 / 3))
         - b / a * (1 / 3)]

end CubicBezier

/-! ### Claim C6 — solver degree degradation -/

/-- C6: `real_roots` is total (it always returns a list; each case below is an
equation), and on the sub-cubic branches it returns: no roots when `|a|`,
`|b|`, `|c|` are all below `EPSILON`; the single root `-d/c` when only `|c]`
is not; and for the quadratic (`|a| < EPSILON ≤ |b|`), with
`Δ = c² - 4bd`: both roots `(-c ∓ √Δ)/(2b)` when `Δ > 0`, the single root
`-c/(2b)` when `Δ ≤ 0` with `|Δ| < EPSILON`, and no roots otherwise (branches
read in the code's priority order). -/
theorem c6_real_roots_degradation (a b c d : ℝ) :
    (|a| < EPSILON → |b| < EPSILON → |c| < EPSILON →
      CubicBezier.real_roots a b c d = [])
    ∧ (|a| < EPSILON → |b| < EPSILON → EPSILON ≤ |c| →
      CubicBezier.real_roots a b c d = [-d / c])
    ∧ (|a| < EPSILON → EPSILON ≤ |b| → 0 < c * c - 4 * b * d →
      CubicBezier.real_roots a b c d =
        [(-c - Real.sqrt (c * c - 4 * b * d)) / (2 * b),
         (-c + Real.sqrt (c * c - 4 * b * d)) / (2 * b)])
    ∧ (|a| < EPSILON → EPSILON ≤ |b| → c * c - 4 * b * d ≤ 0 →
        |c * c - 4 * b * d| < EPSILON →
      CubicBezier.real_roots a b c d = [-c / (2 * b)])
    ∧ (|a| < EPSILON → EPSILON ≤ |b| → c * c - 4 * b * d ≤ 0 →
        EPSILON ≤ |c * c - 4 * b * d| →
      CubicBezier.real_roots a b c d = []) := by
  refine ⟨?_, ?_, ?_, ?_, ?_⟩ <;>
    (intros
     unfold CubicBezier.real_roots
     split_ifs <;> first | rfl | linarith)

/-- Witness for C6: the spec's own solver-fallback examples
`(0,0,2,-4) → {2}` and `(0,1,0,-4) → {-2, 2}`. -/
theorem c6_witness :
    CubicBezier.real_roots 0 0 2 (-4) = [2]
    ∧ CubicBezier.real_roots 0 1 0 (-4) = [-2, 2] := by
  constructor
  · have h := (c6_real_roots_degradation 0 0 2 (-4)).2.1
      (by norm_num [EPSILON]) (by norm_num [EPSILON]) (by norm_num [EPSILON])
    rw [h]; norm_num
  · have h := (c6_real_roots_degradation 0 1 0 (-4)).2.2.1
      (by norm_num [EPSILON]) (by norm_num [EPSILON]) (by norm_num)
    rw [h]
    have h16 : (0 * 0 - 4 * 1 * (-4) : ℝ) = 4 ^ 2 := by norm_num
    rw [h16, Real.sqrt_sq (by norm_num : (0:ℝ) ≤ 4)]
    norm_num

/-! ### Claim C7 — Cardano branch, duplicate-root suppression -/

/-- C7: in the cubic branch (`EPSILON ≤ |a|`) with `delta_01 ≥ 0`, the root
`-bn/3 + (s+t)` is always emitted, and the second root `-bn/3 - (s+t)/2` is
emitted exactly when `|s-t| < EPSILON` and `|s+t| ≥ EPSILON`; in particular
when `s + t = 0` only the first root is returned (no spurious duplicate). -/
theorem c7_cardano_duplicate_guard (a b c d : ℝ)
    (ha : EPSILON ≤ |a|) (hd : 0 ≤ cardanoDelta01 a b c d) :
    CubicBezier.real_roots a b c d =
      (-(b / a) * (1 / 3) + (cardanoS a b c d + cardanoT a b c d)) ::
        (if |cardanoS a b c d - cardanoT a b c d| < EPSILON
            ∧ EPSILON ≤ |cardanoS a b c d + cardanoT a b c d| then
          [-(b / a) * (1 / 3) - (cardanoS a b c d + cardanoT a b c d) / 2]
        else [])
    ∧ (cardanoS a b c d + cardanoT a b c d = 0 →
        CubicBezier.real_roots a b c d =
          [-(b / a) * (1 / 3) + (cardanoS a b c d + cardanoT a b c d)]) := by
  have main : CubicBezier.real_roots a b c d =
      (-(b / a) * (1 / 3) + (cardanoS a b c d + cardanoT a b c d)) ::
        (if |cardanoS a b c d - cardanoT a b c d| < EPSILON
            ∧ EPSILON ≤ |cardanoS a b c d + cardanoT a b c d| then
          [-(b / a) * (1 / 3) - (cardanoS a b c d + cardanoT a b c d) / 2]
        else []) := by
    unfold CubicBezier.real_roots
    split_ifs <;> first | rfl | linarith
  refine ⟨main, fun hst => ?_⟩
  have hng : ¬(|cardanoS a b c d - cardanoT a b c d| < EPSILON
      ∧ EPSILON ≤ |cardanoS a b c d + cardanoT a b c d|) := by
    rintro ⟨-, h2⟩
    rw [hst, abs_zero] at h2
    exact absurd h2 (not_le.mpr EPSILON_pos)
  rw [main, if_neg hng]

/-- Witness for C7: `t³ = 0` (coefficients `(1,0,0,0)`), where
`delta_01 = 0 ≥ 0`, `s = t = 0`, and the single root `0` is returned. -/
theorem c7_witness : CubicBezier.real_roots 1 0 0 0 = [0] := by
  have hδ1 : cardanoDelta1 1 0 0 0 = 0 := by norm_num [cardanoDelta1]
  have hd01 : cardanoDelta01 1 0 0 0 = 0 := by
    norm_num [cardanoDelta01, cardanoDelta0, cardanoDelta1]
  have hs : cardanoS 1 0 0 0 = 0 := by
    unfold cardanoS
    rw [hδ1, hd01, Real.sqrt_zero, add_zero, abs_zero,
      Real.zero_rpow (by norm_num : (1:ℝ) / 3 ≠ 0), mul_zero]
  have ht : cardanoT 1 0 0 0 = 0 := by
    unfold cardanoT
    rw [hδ1, hd01, Real.sqrt_zero, sub_zero, abs_zero,
      Real.zero_rpow (by norm_num : (1:ℝ) / 3 ≠ 0), mul_zero]
  have h := (c7_cardano_duplicate_guard 1 0 0 0
      (by norm_num [EPSILON]) (le_of_eq hd01.symm)).2 (by rw [hs, ht]; norm_num)
  rw [h, hs, ht]
  norm_num

/-! ## Arc length (`src/cubic_bezier.rs`, `arclen`) -/

namespace CubicBezier

variable {D : ℕ}

/-- `CubicBezier::arclen`: the loop `for t in 1..nsteps` accumulates, for
`t_k = k * (1/nsteps)` with `k = 1 .. nsteps-1`, the distance
`((p1-p2).squared_length()).sqrt()` between `p1 = eval_casteljau(t_k)` and
`p2 = eval_casteljau(t_k + stepsize)`, `stepsize = 1/nsteps`.  The
accumulator order is immaterial over `ℝ`, so the loop is embedded as the sum
over `k ∈ [1, nsteps)`. -/
noncomputable def arclen (b : CubicBezier D) (nsteps : ℕ) : ℝ :=
  ∑ k ∈ Finset.Ico 1 nsteps,
    Real.sqrt ((b.eval_casteljau ((k : ℝ) * (1 / (nsteps : ℝ)))
      - b.eval_casteljau ((k : ℝ) * (1 / (nsteps : ℝ)) + 1 / (nsteps : ℝ))).squared_length)

end CubicBezier

/-- Reference definition following claim C1/C8's words only (for comparison
with the source's `arclen`, not taken from the source): the piecewise-linear
approximation over `steps` equally spaced parameters *spanning the whole
interval* `[0,1]`, i.e. samples `k/(steps-1)` for `k = 0 .. steps-1` and the
sum of distances between consecutive samples. -/
noncomputable def specArcLength {D : ℕ} (b : CubicBezier D) (steps : ℕ) : ℝ :=
  ∑ k ∈ Finset.range (steps - 1),
    Real.sqrt ((b.eval_casteljau ((k : ℝ) / ((steps : ℝ) - 1))
      - b.eval_casteljau (((k : ℝ) + 1) / ((steps : ℝ) - 1))).squared_length)

/-! ### Claim C8 — `arclen` versus the whole-interval piecewise-linear sum -/

/-- C8 counterexample: for the cubic `t ↦ t³` (control points
`(0),(0),(0),(1)`) and `steps = 2`, the code's `arclen` is `7/8` (one segment,
from `t = 1/2` to `t = 1`) while the piecewise-linear approximation spanning
the whole of `[0,1]` with two samples is `1`; the first segment `[0, 1/2]` is
skipped by the loop, which starts at `t = 1/step`. -/
theorem c8_counterexample :
    CubicBezier.arclen (⟨fun _ => 0, fun _ => 0, fun _ => 0, fun _ => 1⟩ : CubicBezier 1) 2 = 7 / 8
    ∧ specArcLength (⟨fun _ => 0, fun _ => 0, fun _ => 0, fun _ => 1⟩ : CubicBezier 1) 2 = 1
    ∧ CubicBezier.arclen (⟨fun _ => 0, fun _ => 0, fun _ => 0, fun _ => 1⟩ : CubicBezier 1) 2
      ≠ specArcLength (⟨fun _ => 0, fun _ => 0, fun _ => 0, fun _ => 1⟩ : CubicBezier 1) 2 := by
  have h1 : CubicBezier.arclen (⟨fun _ => 0, fun _ => 0, fun _ => 0, fun _ => 1⟩ : CubicBezier 1) 2
      = 7 / 8 := by
    unfold CubicBezier.arclen
    rw [show Finset.Ico 1 2 = {1} from rfl, Finset.sum_singleton]
    have hsq : ((CubicBezier.eval_casteljau (⟨fun _ => 0, fun _ => 0, fun _ => 0, fun _ => 1⟩ : CubicBezier 1)
          (((1:ℕ) : ℝ) * (1 / ((2:ℕ) : ℝ)))
        - CubicBezier.eval_casteljau (⟨fun _ => 0, fun _ => 0, fun _ => 0, fun _ => 1⟩ : CubicBezier 1)
          (((1:ℕ) : ℝ) * (1 / ((2:ℕ) : ℝ)) + 1 / ((2:ℕ) : ℝ))).squared_length)
        = (7 / 8) ^ 2 := by
      simp only [CubicBezier.eval_casteljau, Pt.squared_length, Pt.sub_apply, Pt.add_apply,
        Pt.mulS_apply, Fin.sum_univ_one]
      norm_num
    rw [hsq, Real.sqrt_sq (by norm_num : (0:ℝ) ≤ 7 / 8)]
  have h2 : specArcLength (⟨fun _ => 0, fun _ => 0, fun _ => 0, fun _ => 1⟩ : CubicBezier 1) 2
      = 1 := by
    unfold specArcLength
    rw [show (2 - 1 : ℕ) = 1 from rfl, Finset.sum_range_one]
    have hsq : ((CubicBezier.eval_casteljau
          (⟨fun _ => 0, fun _ => 0, fun _ => 0, fun _ => 1⟩ : CubicBezier 1)
          (((0:ℕ) : ℝ) / (((2:ℕ) : ℝ) - 1))
        - CubicBezier.eval_casteljau
          (⟨fun _ => 0, fun _ => 0, fun _ => 0, fun _ => 1⟩ : CubicBezier 1)
          ((((0:ℕ) : ℝ) + 1) / (((2:ℕ) : ℝ) - 1))).squared_length)
        = 1 ^ 2 := by
      simp only [CubicBezier.eval_casteljau, Pt.squared_length, Pt.sub_apply, Pt.add_apply,
        Pt.mulS_apply, Fin.sum_univ_one]
      norm_num
    rw [hsq, Real.sqrt_sq (by norm_num : (0:ℝ) ≤ 1)]
  exact ⟨h1, h2, by rw [h1, h2]; norm_num⟩

/-- C8 amended: `arc_length(steps)` is the piecewise-linear sum of distances
between consecutive `eval_casteljau` samples at `k/steps` for
`k = 1 .. steps`; the initial segment from `t = 0` to `t = 1/steps` is not
included (and for `steps = 1` the sum is empty, giving `0`). -/
theorem c8_arclen_sum {D : ℕ} (b : CubicBezier D) :
    (∀ nsteps : ℕ, b.arclen nsteps = ∑ k ∈ Finset.Ico 1 nsteps,
      Real.sqrt ((b.eval_casteljau ((k : ℝ) / (nsteps : ℝ))
        - b.eval_casteljau (((k : ℝ) + 1) / (nsteps : ℝ))).squared_length))
    ∧ b.arclen 1 = 0 := by
  constructor
  · intro nsteps
    unfold CubicBezier.arclen
    refine Finset.sum_congr rfl fun k _ => ?_
    rw [show (k : ℝ) * (1 / (nsteps : ℝ)) = (k : ℝ) / (nsteps : ℝ) from by ring,
      show (k : ℝ) / (nsteps : ℝ) + 1 / (nsteps : ℝ) = ((k : ℝ) + 1) / (nsteps : ℝ) from by
        ring]
  · unfold CubicBezier.arclen
    simp

/-! ## Knot-span search (`src/bspline.rs`, `upper_bounds`) -/

namespace BSpline

/-- The `while count > 0` loop of `BSpline::upper_bounds`: binary search state
`(first, count)`; with `step = count / 2` and `it = first + step` (inlined
below), if `!value.lt(&data[it])` take the right half (`first = it + 1`,
`count -= step + 1`), else the left half (`count = step`).  Out-of-range
indexing (never reached from `upper_bounds`) is modelled by `getD` with
default `0`. -/
noncomputable def upperBoundsLoop (data : List ℝ) (value : ℝ) (first count : ℕ) : ℕ :=
  if h : 0 < count then
    if ¬ value < data.getD (first + count / 2) 0 then
      upperBoundsLoop data value (first + count / 2 + 1) (count - (count / 2 + 1))
    else
      upperBoundsLoop data value first (count / 2)
  else
    first
termination_by count
decreasing_by
  · omega
  · omega

/-- `BSpline::upper_bounds`: the index of the first element greater than
`value` by binary search; `None` if there is none (i.e. the loop's final
`first` equals `data.len()`). -/
noncomputable def upper_bounds (data : List ℝ) (value : ℝ) : Option ℕ :=
  if upperBoundsLoop data value 0 data.length = data.length then
    none
  else
    some (upperBoundsLoop data value 0 data.length)

end BSpline

/-- On a sorted list, `getD` (with any default) is monotone over in-range
indices. -/
lemma sorted_getD_mono {data : List ℝ} (hs : data.Sorted (· ≤ ·)) {i j : ℕ}
    (hij : i ≤ j) (hj : j < data.length) :
    data.getD i 0 ≤ data.getD j 0 := by
  rcases eq_or_lt_of_le hij with rfl | hlt
  · exact le_refl _
  · rw [data.getD_eq_getElem (d := 0) (lt_trans hlt hj), data.getD_eq_getElem (d := 0) hj]
    exact List.Sorted.rel_get_of_lt hs (by exact hlt)

/-- Invariant-based correctness of the binary-search loop: if everything left
of the window is `≤ value` and everything right of it is `> value`, with the
window inside the list, the loop returns the boundary index: all entries below
it are `≤ value` and all in-range entries from it on are `> value`. -/
lemma upperBoundsLoop_spec (data : List ℝ) (value : ℝ)
    (hs : data.Sorted (· ≤ ·)) :
    ∀ count first, first + count ≤ data.length →
      (∀ j, j < first → data.getD j 0 ≤ value) →
      (∀ j, first + count ≤ j → j < data.length → value < data.getD j 0) →
      (∀ j, j < BSpline.upperBoundsLoop data value first count →
          data.getD j 0 ≤ value)
      ∧ (∀ j, BSpline.upperBoundsLoop data value first count ≤ j →
          j < data.length → value < data.getD j 0)
      ∧ first ≤ BSpline.upperBoundsLoop data value first count
      ∧ BSpline.upperBoundsLoop data value first count ≤ first + count := by
  intro count
  induction count using Nat.strong_induction_on with
  | _ count ih =>
    intro first hlen hlo hhi
    rw [BSpline.upperBoundsLoop]
    by_cases h : 0 < count
    · rw [dif_pos h]
      by_cases hc : value < data.getD (first + count / 2) 0
      · -- left half: count = step
        rw [if_neg (not_not_intro hc)]
        have hrec := ih (count / 2) (by omega) first (by omega) hlo ?_
        · exact ⟨hrec.1, hrec.2.1, hrec.2.2.1, by omega⟩
        · intro j hj hjlen
          rcases lt_or_le j (first + count) with hj2 | hj2
          · calc value < data.getD (first + count / 2) 0 := hc
              _ ≤ data.getD j 0 := sorted_getD_mono hs (by omega) hjlen
          · exact hhi j hj2 hjlen
      · -- right half: first = it + 1, count -= step + 1
        rw [if_pos hc]
        have hit : data.getD (first + count / 2) 0 ≤ value := not_lt.mp hc
        have hrec := ih (count - (count / 2 + 1)) (by omega) (first + count / 2 + 1)
          (by omega) ?_ ?_
        · refine ⟨hrec.1, hrec.2.1, by omega, by omega⟩
        · intro j hj
          calc data.getD j 0 ≤ data.getD (first + count / 2) 0 :=
                sorted_getD_mono hs (by omega) (by omega)
            _ ≤ value := hit
        · intro j hj hjlen
          exact hhi j (by omega) hjlen
    · rw [dif_neg h]
      have hc0 : count = 0 := by omega
      subst hc0
      exact ⟨hlo, fun j hj hjlen => hhi j (by omega) hjlen, le_refl _, by omega⟩

/-! ### Claim C10 — `upper_bounds` correctness on sorted input -/

/-- C10: on a list sorted in non-decreasing order, `upper_bounds data value`
returns `some i` exactly when `i` is the smallest index with
`data[i] > value`, and `none` exactly when no element exceeds `value`. -/
theorem c10_upper_bounds_correct (data : List ℝ) (value : ℝ)
    (hs : data.Sorted (· ≤ ·)) :
    (∀ i, BSpline.upper_bounds data value = some i ↔
      i < data.length ∧ value < data.getD i 0
        ∧ ∀ j, j < i → data.getD j 0 ≤ value)
    ∧ (BSpline.upper_bounds data value = none ↔
      ∀ j, j < data.length → data.getD j 0 ≤ value) := by
  obtain ⟨hbelow, habove, -, hle0⟩ := upperBoundsLoop_spec data value hs data.length 0
    (by omega) (fun j hj => absurd hj (Nat.not_lt_zero j)) (fun j hj hjlen => by omega)
  set r := BSpline.upperBoundsLoop data value 0 data.length with hr
  have hle : r ≤ data.length := by omega
  constructor
  · intro i
    constructor
    · intro hsome
      unfold BSpline.upper_bounds at hsome
      rw [← hr] at hsome
      split_ifs at hsome with hnone
      have heq : r = i := by injection hsome
      subst heq
      exact ⟨lt_of_le_of_ne hle hnone, habove r (le_refl r) (lt_of_le_of_ne hle hnone),
        hbelow⟩
    · rintro ⟨hi, hgt, hmin⟩
      have hri : r = i := by
        rcases lt_trichotomy r i with hlt | heq | hgt2
        · exact absurd (hmin r hlt) (not_le.mpr (habove r (le_refl r) (lt_trans hlt hi)))
        · exact heq
        · exact absurd (hbelow i hgt2) (not_le.mpr hgt)
      unfold BSpline.upper_bounds
      rw [← hr, if_neg (by omega : ¬ r = data.length), hri]
  · constructor
    · intro hnone j hj
      unfold BSpline.upper_bounds at hnone
      rw [← hr] at hnone
      split_ifs at hnone with heq
      · exact hbelow j (by omega)
    · intro hall
      unfold BSpline.upper_bounds
      rw [← hr, if_pos]
      by_contra hne
      have hrlt : r < data.length := lt_of_le_of_ne hle hne
      exact absurd (hall r hrlt) (not_le.mpr (habove r (le_refl r) hrlt))

/-- Witness for C10: on the sorted list `[1, 3, 5]` with value `2`, the search
returns index `1` (the first element greater than `2` is `3`). -/
theorem c10_witness : BSpline.upper_bounds [1, 3, 5] (2 : ℝ) = some 1 := by
  have hs : List.Sorted (· ≤ ·) [(1:ℝ), 3, 5] := by
    norm_num [List.sorted_cons]
  refine ((c10_upper_bounds_correct [1, 3, 5] 2 hs).1 1).mpr ?_
  refine ⟨by norm_num, by norm_num [List.getD], ?_⟩
  intro j hj
  interval_cases j
  norm_num [List.getD]

/-! ## Bounding box (`src/cubic_bezier.rs`, `bounding_box`) -/

namespace QuadraticBezier

/-- Modelled from the spec: `QuadraticBezier::real_roots(a, b, c)` for
`a·t² + b·t + c` (its defining file is not among the sources;
`bounding_box` calls it on the derivative's per-axis coefficients).  Spec
§4.2's degradation with a zero cubic coefficient: both leading coefficients
`≈ 0` → no roots; `|a| ≈ 0` → linear root `-c/b`; otherwise `Δ = b² - 4ac`
with the quadratic branch exactly as in `CubicBezier::real_roots`. -/
noncomputable def real_roots (a b c : ℝ) : List ℝ :=
  if |a| < EPSILON then
    if |b| < EPSILON then []
    else [-c / b]
  else
    if b * b - 4 * a * c > 0 then
      [(-b - Real.sqrt (b * b - 4 * a * c)) / (2 * a),
       (-b + Real.sqrt (b * b - 4 * a * c)) / (2 * a)]
    else if |b * b - 4 * a * c| < EPSILON then
      [-b / (2 * a)]
    else
      []

end QuadraticBezier

namespace CubicBezier

variable {D : ℕ}

/-- `bounding_box`'s quadratic coefficient of the derivative:
`a = derivative.start + derivative.ctrl * -2.0 + derivative.end`. -/
def bbCoeffA (b : CubicBezier D) : Pt D :=
  b.derivative.start + (b.derivative.ctrl).mulS (-2) + b.derivative.stop

/-- `bounding_box`'s linear coefficient:
`b = derivative.start * -2.0 + derivative.ctrl * 2.0`. -/
def bbCoeffB (b : CubicBezier D) : Pt D :=
  (b.derivative.start).mulS (-2) + (b.derivative.ctrl).mulS 2

/-- `bounding_box`'s constant coefficient: `c = derivative.start`. -/
def bbCoeffC (b : CubicBezier D) : Pt D :=
  b.derivative.start

/-- The candidate values `bounding_box` collects for axis `dim`: the original
cubic (`eval_casteljau`) at each solver root retained by
`root > 0 && root < 1`, then the start and end coordinates. -/
noncomputable def bbCandidates (b : CubicBezier D) (dim : Fin D) : List ℝ :=
  (((QuadraticBezier.real_roots ((bbCoeffA b).axis dim) ((bbCoeffB b).axis dim)
        ((bbCoeffC b).axis dim)).filter
      (fun r => 0 < r ∧ r < 1)).map
    (fun r => (b.eval_casteljau r).axis dim))
    ++ [b.start.axis dim, b.stop.axis dim]

/-- `CubicBezier::bounding_box`, one axis: the candidates are sorted
ascending (`sort_unstable_by` with `partial_cmp`) and the bound is
`(extrema[0], *extrema.last().unwrap())`. -/
noncomputable def bounding_box (b : CubicBezier D) (dim : Fin D) : ℝ × ℝ :=
  ((List.insertionSort (· ≤ ·) (bbCandidates b dim)).headD 0,
   (List.insertionSort (· ≤ ·) (bbCandidates b dim)).getLastD 0)

end CubicBezier

/-- In a sorted (non-decreasing) list the `headD` is a lower bound for every
element. -/
lemma sorted_headD_le {l : List ℝ} (hl : l.Sorted (· ≤ ·)) {x : ℝ} (hx : x ∈ l) :
    l.headD 0 ≤ x := by
  cases l with
  | nil => cases hx
  | cons a t =>
    rw [List.sorted_cons] at hl
    rcases List.mem_cons.mp hx with rfl | hxt
    · exact le_refl _
    · exact hl.1 x hxt

/-- In a sorted (non-decreasing) list the `getLastD` is an upper bound for
every element. -/
lemma sorted_le_getLastD : ∀ {l : List ℝ}, l.Sorted (· ≤ ·) →
    ∀ {x : ℝ}, x ∈ l → x ≤ l.getLastD 0 := by
  intro l
  induction l with
  | nil => intro _ x hx; cases hx
  | cons a t ih =>
    intro hl x hx
    rw [List.sorted_cons] at hl
    cases t with
    | nil =>
      rcases List.mem_cons.mp hx with rfl | h0
      · exact le_refl _
      · cases h0
    | cons b t2 =>
      have h2 : (a :: b :: t2).getLastD 0 = (b :: t2).getLastD 0 := rfl
      rcases List.mem_cons.mp hx with rfl | hxt
      · rw [h2]
        exact le_trans (hl.1 b (List.mem_cons_self b t2))
          (ih hl.2 (List.mem_cons_self b t2))
      · rw [h2]
        exact ih hl.2 hxt

/-- The head of a nonempty list is a member. -/
lemma headD_mem {l : List ℝ} (hl : l ≠ []) : l.headD 0 ∈ l := by
  cases l with
  | nil => exact absurd rfl hl
  | cons a t => exact List.mem_cons_self a t

/-- The `getLastD` of a nonempty list is a member. -/
lemma getLastD_mem : ∀ {l : List ℝ}, l ≠ [] → l.getLastD 0 ∈ l := by
  intro l
  induction l with
  | nil => intro h; exact absurd rfl h
  | cons a t ih =>
    intro _
    cases t with
    | nil => exact List.mem_cons_self a []
    | cons b t2 =>
      have h2 : (a :: b :: t2).getLastD 0 = (b :: t2).getLastD 0 := rfl
      rw [h2]
      exact List.mem_cons_of_mem a (ih (List.cons_ne_nil b t2))

/-! ### Claim C2 — bounding box

The claim says the box is the exact min/max over the cubic's values at *every
root of its derivative* in `(0,1)` plus the endpoints, and that the curve
therefore stays inside the box.  The solver thresholds coefficients against
`EPSILON`, so a derivative whose leading per-axis coefficients are small but
non-zero has its roots dropped; the curve `tinyBump` below has an interior
maximum at the derivative root `t = 1/2` that exceeds the returned upper
bound.  The amended statement characterizes the box via the roots the solver
actually returns. -/

/-- The counterexample curve for C2: control points
`(0), (h), (h), (0)` with `h = 1/600000000000`, i.e. the curve
`t ↦ 3h·t(1-t)` with derivative `3h(1-2t)`: the derivative's per-axis
coefficients `(0, -6h, 3h)` satisfy `|{-6h}| = 1e-11 < EPSILON`, so the
solver returns no roots although `t = 1/2` is a genuine root of the
derivative. -/
noncomputable def tinyBump : CubicBezier 1 :=
  ⟨fun _ => 0, fun _ => 1 / 600000000000, fun _ => 1 / 600000000000, fun _ => 0⟩

/-- C2 counterexample: `t = 1/2` lies in `(0,1)` and is a root of
`tinyBump`'s derivative (the tangent of `eval_casteljau` vanishes there), yet
the curve's value at `1/2` strictly exceeds the upper bound that
`bounding_box` returns for axis `0` — so the returned pair is not the
min/max over the claim's candidate set and the curve leaves the box. -/
theorem c2_counterexample :
    ((0:ℝ) < 1/2 ∧ (1/2:ℝ) < 1)
    ∧ HasDerivAt (fun u : ℝ => Pt.axis (CubicBezier.eval_casteljau tinyBump u) 0) 0 (1/2)
    ∧ (CubicBezier.bounding_box tinyBump 0).2
      < Pt.axis (CubicBezier.eval_casteljau tinyBump (1/2)) 0 := by
  refine ⟨⟨by norm_num, by norm_num⟩, ?_, ?_⟩
  · have hfun : (fun u : ℝ => Pt.axis (CubicBezier.eval_casteljau tinyBump u) 0)
        = fun u : ℝ => (1 / 200000000000 : ℝ) * u - (1 / 200000000000 : ℝ) * u ^ 2 := by
      funext u
      simp only [CubicBezier.eval_casteljau, tinyBump, Pt.axis_def, Pt.add_apply,
        Pt.sub_apply, Pt.mulS_apply]
      ring
    rw [hfun]
    have h1 : HasDerivAt (fun u : ℝ => (1 / 200000000000 : ℝ) * u)
        (1 / 200000000000 : ℝ) (1/2) := by
      simpa using (hasDerivAt_id (1/2 : ℝ)).const_mul (1 / 200000000000 : ℝ)
    have h2 : HasDerivAt (fun u : ℝ => (1 / 200000000000 : ℝ) * u ^ 2)
        (1 / 200000000000 : ℝ) (1/2) := by
      have := (hasDerivAt_pow 2 (1/2 : ℝ)).const_mul (1 / 200000000000 : ℝ)
      norm_num at this
      exact this
    simpa using h1.sub h2
  · have ha : Pt.axis (CubicBezier.bbCoeffA tinyBump) 0 = 0 := by
      simp only [CubicBezier.bbCoeffA, CubicBezier.derivative, tinyBump, Pt.axis_def,
        Pt.add_apply, Pt.sub_apply, Pt.mulS_apply]
      norm_num
    have hb : Pt.axis (CubicBezier.bbCoeffB tinyBump) 0 = -(1 / 100000000000) := by
      simp only [CubicBezier.bbCoeffB, CubicBezier.derivative, tinyBump, Pt.axis_def,
        Pt.add_apply, Pt.sub_apply, Pt.mulS_apply]
      norm_num
    have hc : Pt.axis (CubicBezier.bbCoeffC tinyBump) 0 = 1 / 200000000000 := by
      simp only [CubicBezier.bbCoeffC, CubicBezier.derivative, tinyBump, Pt.axis_def,
        Pt.sub_apply, Pt.mulS_apply]
      norm_num
    have hq : QuadraticBezier.real_roots 0 (-(1 / 100000000000)) (1 / 200000000000)
        = [] := by
      unfold QuadraticBezier.real_roots
      rw [if_pos (by rw [abs_zero]; norm_num [EPSILON]),
        if_pos (by rw [abs_neg, abs_of_pos] <;> norm_num [EPSILON])]
    have hcand : CubicBezier.bbCandidates tinyBump 0 = [0, 0] := by
      unfold CubicBezier.bbCandidates
      rw [ha, hb, hc, hq]
      simp [tinyBump, Pt.axis_def]
    have hbb : CubicBezier.bounding_box tinyBump 0 = (0, 0) := by
      unfold CubicBezier.bounding_box
      rw [hcand]
      norm_num [List.insertionSort, List.orderedInsert]
    rw [hbb]
    simp only [CubicBezier.eval_casteljau, tinyBump, Pt.axis_def, Pt.add_apply,
      Pt.sub_apply, Pt.mulS_apply]
    norm_num

/-- C2 amended: per axis, `bounding_box` returns the pair (minimum, maximum)
of the candidate set the code builds — the original curve (`eval_casteljau`)
evaluated at each root *returned by the epsilon-thresholded quadratic solver*
for the derivative's per-axis coefficients that lies in the open interval
`(0,1)`, together with the start and end coordinates.  (Containment of the
whole curve holds only when the solver's roots are the true derivative roots,
which the epsilon thresholds do not guarantee — see the counterexample.) -/
theorem c2_bounding_box_minmax {D : ℕ} (b : CubicBezier D) (dim : Fin D) :
    (b.bounding_box dim).1 ∈ b.bbCandidates dim
    ∧ (b.bounding_box dim).2 ∈ b.bbCandidates dim
    ∧ ∀ x ∈ b.bbCandidates dim,
        (b.bounding_box dim).1 ≤ x ∧ x ≤ (b.bounding_box dim).2 := by
  have hperm := List.perm_insertionSort (· ≤ ·) (b.bbCandidates dim)
  have hsorted := List.sorted_insertionSort (· ≤ ·) (b.bbCandidates dim)
  have hne : b.bbCandidates dim ≠ [] := by
    unfold CubicBezier.bbCandidates
    simp
  have hne2 : List.insertionSort (· ≤ ·) (b.bbCandidates dim) ≠ [] := by
    intro h0
    rw [h0] at hperm
    exact hne (List.Perm.eq_nil hperm.symm)
  refine ⟨?_, ?_, ?_⟩
  · exact hperm.mem_iff.mp (headD_mem hne2)
  · exact hperm.mem_iff.mp (getLastD_mem hne2)
  · intro x hx
    have hx2 : x ∈ List.insertionSort (· ≤ ·) (b.bbCandidates dim) :=
      hperm.mem_iff.mpr hx
    exact ⟨sorted_headD_le hsorted hx2, sorted_le_getLastD hsorted hx2⟩

/-! ## Scalar De Casteljau layer (for claim C1)

All point operations in `Bezier::eval` / `Bezier::split` are componentwise,
so the subdivision identities reduce per axis to identities about the scalar
De Casteljau recursion on `List ℝ`.  This section develops that scalar
theory; the projection lemmas relating it to the point-level definitions
follow. -/

/-- `zipWith` of the lerp `a*(1-t) + b*t` over two coefficient lists. -/
def lerpList (t : ℝ) (xs ys : List ℝ) : List ℝ :=
  List.zipWith (fun a b => a * (1 - t) + b * t) xs ys

@[simp] lemma lerpList_nil_left (t : ℝ) (ys : List ℝ) : lerpList t [] ys = [] := rfl

@[simp] lemma lerpList_nil_right (t : ℝ) (xs : List ℝ) : lerpList t xs [] = [] := by
  simp [lerpList]

@[simp] lemma lerpList_cons (t a c : ℝ) (xs ys : List ℝ) :
    lerpList t (a :: xs) (c :: ys) = (a * (1 - t) + c * t) :: lerpList t xs ys := rfl

/-- The scalar counterpart of one De Casteljau pass. -/
def dcPass (t : ℝ) (l : List ℝ) : List ℝ :=
  List.zipWith (fun a b => a * (1 - t) + b * t) l l.tail

@[simp] lemma dcPass_nil (t : ℝ) : dcPass t [] = [] := rfl

@[simp] lemma dcPass_singleton (t x : ℝ) : dcPass t [x] = [] := rfl

@[simp] lemma dcPass_cons_cons (t a b : ℝ) (m : List ℝ) :
    dcPass t (a :: b :: m) = (a * (1 - t) + b * t) :: dcPass t (b :: m) := by
  simp [dcPass]

@[simp] lemma length_dcPass (t : ℝ) (l : List ℝ) :
    (dcPass t l).length = l.length - 1 := by
  cases l with
  | nil => rfl
  | cons a m => simp [dcPass]

/-- A pass is the lerp-zip of the list-without-last with the tail. -/
lemma dcPass_eq_lerpList (t : ℝ) : ∀ l : List ℝ,
    dcPass t l = lerpList t l.dropLast l.tail := by
  intro l
  induction l with
  | nil => rfl
  | cons a m ih =>
    cases m with
    | nil => rfl
    | cons b m2 =>
      rw [dcPass_cons_cons, ih, List.dropLast_cons₂]
      simp only [List.tail_cons]
      rw [lerpList_cons]

/-- Dropping the last point commutes with a pass. -/
lemma dcPass_dropLast (t : ℝ) : ∀ l : List ℝ,
    (dcPass t l).dropLast = dcPass t l.dropLast := by
  intro l
  induction l with
  | nil => rfl
  | cons a m ih =>
    cases m with
    | nil => rfl
    | cons b m2 =>
      cases m2 with
      | nil => rfl
      | cons c m3 =>
        rw [dcPass_cons_cons, dcPass_cons_cons, List.dropLast_cons₂, ← dcPass_cons_cons,
          ih]
        simp only [List.dropLast_cons₂, dcPass_cons_cons]

/-- Taking the tail commutes with a pass. -/
lemma dcPass_tail (t : ℝ) : ∀ l : List ℝ, (dcPass t l).tail = dcPass t l.tail := by
  intro l
  induction l with
  | nil => rfl
  | cons a m _ =>
    cases m with
    | nil => rfl
    | cons b m2 => rw [dcPass_cons_cons, List.tail_cons, List.tail_cons]

/-- The scalar De Casteljau evaluation: iterate passes down to one value. -/
def dcEval (t : ℝ) : List ℝ → ℝ
  | [] => 0
  | [x] => x
  | a :: b :: m => dcEval t (dcPass t (a :: b :: m))
termination_by l => l.length
decreasing_by simp [length_dcPass]

@[simp] lemma dcEval_nil (t : ℝ) : dcEval t [] = 0 := by rw [dcEval]

@[simp] lemma dcEval_singleton (t x : ℝ) : dcEval t [x] = x := by rw [dcEval]

lemma dcEval_cons_cons (t a b : ℝ) (m : List ℝ) :
    dcEval t (a :: b :: m) = dcEval t (dcPass t (a :: b :: m)) := by
  rw [dcEval]

/-- A pass at one parameter commutes with lerp-zipping at another. -/
lemma dcPass_lerpList (u t : ℝ) : ∀ (xs ys : List ℝ), xs.length = ys.length →
    dcPass u (lerpList t xs ys) = lerpList t (dcPass u xs) (dcPass u ys) := by
  intro xs
  induction xs with
  | nil => intro ys _; simp
  | cons a m ih =>
    intro ys hlen
    cases ys with
    | nil => simp at hlen
    | cons c k =>
      cases m with
      | nil =>
        cases k with
        | nil => simp
        | cons d k2 => simp at hlen
      | cons b m2 =>
        cases k with
        | nil => simp at hlen
        | cons d k2 =>
          have ih2 := ih (d :: k2) (by simpa using hlen)
          rw [lerpList_cons, lerpList_cons, dcPass_cons_cons, ← lerpList_cons, ih2,
            dcPass_cons_cons, dcPass_cons_cons, lerpList_cons]
          congr 1
          ring

/-- De Casteljau evaluation is an affine map of the control values: evaluating
the lerp-zip of two equal-length lists lerps the two evaluations. -/
lemma dcEval_lerpList (u t : ℝ) :
    ∀ (n : ℕ) (xs ys : List ℝ), xs.length ≤ n → xs.length = ys.length →
      dcEval u (lerpList t xs ys) = dcEval u xs * (1 - t) + dcEval u ys * t := by
  intro n
  induction n with
  | zero =>
    intro xs ys hn hlen
    have hxs : xs = [] := List.length_eq_zero.mp (Nat.le_zero.mp hn)
    subst hxs
    have hys : ys = [] := List.length_eq_zero.mp hlen.symm
    subst hys
    simp
  | succ n ih =>
    intro xs ys hn hlen
    cases xs with
    | nil =>
      cases ys with
      | nil => simp
      | cons c k => simp at hlen
    | cons a m =>
      cases ys with
      | nil => simp at hlen
      | cons c k =>
        cases m with
        | nil =>
          cases k with
          | nil => simp
          | cons d k2 => simp at hlen
        | cons b m2 =>
          cases k with
          | nil => simp at hlen
          | cons d k2 =>
            have hcomm := dcPass_lerpList u t (a :: b :: m2) (c :: d :: k2)
              (by simpa using hlen)
            rw [lerpList_cons, lerpList_cons, dcEval_cons_cons, ← lerpList_cons,
              ← lerpList_cons, hcomm]
            rw [ih (dcPass u (a :: b :: m2)) (dcPass u (c :: d :: k2))
              (by simp at hn ⊢; omega) (by simp at hlen ⊢; omega)]
            rw [← dcEval_cons_cons, ← dcEval_cons_cons]

/-- The fundamental De Casteljau recurrence:
`B(p₀..pₙ; u) = (1-u)·B(p₀..pₙ₋₁; u) + u·B(p₁..pₙ; u)`. -/
lemma dcEval_recurrence (u a b : ℝ) (m : List ℝ) :
    dcEval u (a :: b :: m)
      = dcEval u ((a :: b :: m).dropLast) * (1 - u) + dcEval u (b :: m) * u := by
  rw [dcEval_cons_cons, dcPass_eq_lerpList]
  exact dcEval_lerpList u u ((a :: b :: m).dropLast).length _ _ le_rfl (by simp)

/-- Scalar counterpart of the left split output: the first point of every
pyramid level. -/
def dcSplitLeft (t : ℝ) : List ℝ → List ℝ
  | [] => []
  | [x] => [x]
  | a :: b :: m => a :: dcSplitLeft t (dcPass t (a :: b :: m))
termination_by l => l.length
decreasing_by simp [length_dcPass]

@[simp] lemma dcSplitLeft_nil (t : ℝ) : dcSplitLeft t [] = [] := by rw [dcSplitLeft]

@[simp] lemma dcSplitLeft_singleton (t x : ℝ) : dcSplitLeft t [x] = [x] := by
  rw [dcSplitLeft]

lemma dcSplitLeft_cons_cons (t a b : ℝ) (m : List ℝ) :
    dcSplitLeft t (a :: b :: m) = a :: dcSplitLeft t (dcPass t (a :: b :: m)) := by
  rw [dcSplitLeft]

/-- Scalar counterpart of the right split output: the last point of every
pyramid level, deepest level first. -/
def dcSplitRight (t : ℝ) : List ℝ → List ℝ
  | [] => []
  | [x] => [x]
  | a :: b :: m => dcSplitRight t (dcPass t (a :: b :: m)) ++ [(a :: b :: m).getLastD 0]
termination_by l => l.length
decreasing_by simp [length_dcPass]

@[simp] lemma dcSplitRight_nil (t : ℝ) : dcSplitRight t [] = [] := by rw [dcSplitRight]

@[simp] lemma dcSplitRight_singleton (t x : ℝ) : dcSplitRight t [x] = [x] := by
  rw [dcSplitRight]

lemma dcSplitRight_cons_cons (t a b : ℝ) (m : List ℝ) :
    dcSplitRight t (a :: b :: m)
      = dcSplitRight t (dcPass t (a :: b :: m)) ++ [(a :: b :: m).getLastD 0] := by
  rw [dcSplitRight]

lemma dcSplitLeft_length_aux (t : ℝ) : ∀ (n : ℕ) (l : List ℝ), l.length ≤ n →
    (dcSplitLeft t l).length = l.length := by
  intro n
  induction n with
  | zero =>
    intro l h
    rw [List.length_eq_zero.mp (Nat.le_zero.mp h)]
    simp
  | succ n ih =>
    intro l h
    cases l with
    | nil => simp
    | cons a m =>
      cases m with
      | nil => simp
      | cons b m2 =>
        rw [dcSplitLeft_cons_cons, List.length_cons,
          ih (dcPass t (a :: b :: m2)) (by simp at h ⊢; omega)]
        simp only [length_dcPass, List.length_cons]
        omega

/-- The left split has as many points as its parent. -/
lemma dcSplitLeft_length (t : ℝ) (l : List ℝ) :
    (dcSplitLeft t l).length = l.length :=
  dcSplitLeft_length_aux t l.length l le_rfl

lemma dcSplitRight_length_aux (t : ℝ) : ∀ (n : ℕ) (l : List ℝ), l.length ≤ n →
    (dcSplitRight t l).length = l.length := by
  intro n
  induction n with
  | zero =>
    intro l h
    rw [List.length_eq_zero.mp (Nat.le_zero.mp h)]
    simp
  | succ n ih =>
    intro l h
    cases l with
    | nil => simp
    | cons a m =>
      cases m with
      | nil => simp
      | cons b m2 =>
        rw [dcSplitRight_cons_cons, List.length_append,
          ih (dcPass t (a :: b :: m2)) (by simp at h ⊢; omega)]
        simp only [length_dcPass, List.length_cons, List.length_nil]
        omega

/-- The right split has as many points as its parent. -/
lemma dcSplitRight_length (t : ℝ) (l : List ℝ) :
    (dcSplitRight t l).length = l.length :=
  dcSplitRight_length_aux t l.length l le_rfl

lemma dcSplitLeft_dropLast_aux (t : ℝ) : ∀ (n : ℕ) (l : List ℝ), l.length ≤ n →
    (dcSplitLeft t l).dropLast = dcSplitLeft t l.dropLast := by
  intro n
  induction n with
  | zero =>
    intro l h
    rw [List.length_eq_zero.mp (Nat.le_zero.mp h)]
    simp
  | succ n ih =>
    intro l h
    cases l with
    | nil => simp
    | cons a m =>
      cases m with
      | nil => simp
      | cons b m2 =>
        cases m2 with
        | nil =>
          simp [dcSplitLeft_cons_cons]
        | cons c m3 =>
          rw [dcSplitLeft_cons_cons]
          have hne : dcSplitLeft t (dcPass t (a :: b :: c :: m3)) ≠ [] := by
            intro h0
            have hl := congrArg List.length h0
            rw [dcSplitLeft_length] at hl
            simp at hl
          rw [List.dropLast_cons_of_ne_nil hne,
            ih (dcPass t (a :: b :: c :: m3)) (by simp at h ⊢; omega),
            dcPass_dropLast]
          simp only [List.dropLast_cons₂]
          rw [dcSplitLeft_cons_cons]

/-- The De Casteljau recurrence, phrased for a head and a nonempty tail. -/
lemma dcEval_recurrence_of_ne_nil (u a : ℝ) {X : List ℝ} (hX : X ≠ []) :
    dcEval u (a :: X)
      = dcEval u ((a :: X).dropLast) * (1 - u) + dcEval u X * u := by
  cases X with
  | nil => exact absurd rfl hX
  | cons b m => exact dcEval_recurrence u a b m

lemma dcSplitLeft_eval_aux (t s : ℝ) : ∀ (n : ℕ) (l : List ℝ), l.length ≤ n →
    dcEval s (dcSplitLeft t l) = dcEval (s * t) l := by
  intro n
  induction n with
  | zero =>
    intro l h
    rw [List.length_eq_zero.mp (Nat.le_zero.mp h)]
    simp
  | succ n ih =>
    intro l h
    cases l with
    | nil => simp
    | cons a m =>
      cases m with
      | nil => simp
      | cons b m2 =>
        rw [dcSplitLeft_cons_cons]
        have hX : dcSplitLeft t (dcPass t (a :: b :: m2)) ≠ [] := by
          intro h0
          have hl := congrArg List.length h0
          rw [dcSplitLeft_length] at hl
          simp at hl
        rw [dcEval_recurrence_of_ne_nil s a hX,
          List.dropLast_cons_of_ne_nil hX,
          dcSplitLeft_dropLast_aux t n (dcPass t (a :: b :: m2)) (by simp at h ⊢; omega),
          dcPass_dropLast,
          ih (dcPass t (a :: b :: m2)) (by simp at h ⊢; omega)]
        cases m2 with
        | nil =>
          simp only [List.dropLast_cons₂, List.dropLast_single, dcPass_singleton,
            dcSplitLeft_nil, dcEval_nil, dcPass_cons_cons, dcEval_cons_cons,
            dcEval_singleton]
          ring_nf
        | cons c m3 =>
          simp only [List.dropLast_cons₂]
          rw [← dcSplitLeft_cons_cons,
            ih (a :: b :: (c :: m3).dropLast) (by simp at h ⊢; omega),
            dcPass_eq_lerpList,
            dcEval_lerpList (s * t) t ((a :: b :: c :: m3).dropLast).length _ _
              (by simp) (by simp),
            dcEval_recurrence (s * t) a b (c :: m3)]
          simp only [List.dropLast_cons₂, List.tail_cons]
          ring

/-- Scalar left-subdivision: evaluating the left split at `s` evaluates the
parent at `s * t`. -/
lemma dcSplitLeft_eval (t s : ℝ) (l : List ℝ) :
    dcEval s (dcSplitLeft t l) = dcEval (s * t) l :=
  dcSplitLeft_eval_aux t s l.length l le_rfl

lemma dcSplitRight_tail_aux (t : ℝ) : ∀ (n : ℕ) (l : List ℝ), l.length ≤ n →
    (dcSplitRight t l).tail = dcSplitRight t l.tail := by
  intro n
  induction n with
  | zero =>
    intro l h
    rw [List.length_eq_zero.mp (Nat.le_zero.mp h)]
    simp
  | succ n ih =>
    intro l h
    cases l with
    | nil => simp
    | cons a m =>
      cases m with
      | nil => simp
      | cons b m2 =>
        have hX : dcSplitRight t (dcPass t (a :: b :: m2)) ≠ [] := by
          intro h0
          have hl := congrArg List.length h0
          rw [dcSplitRight_length] at hl
          simp at hl
        cases hSR : dcSplitRight t (dcPass t (a :: b :: m2)) with
        | nil => exact absurd hSR hX
        | cons x xs =>
          rw [dcSplitRight_cons_cons, hSR, List.cons_append, List.tail_cons]
          have hxs : xs = dcSplitRight t (dcPass t (b :: m2)) := by
            have h1 := ih (dcPass t (a :: b :: m2)) (by simp at h ⊢; omega)
            rw [hSR, List.tail_cons, dcPass_tail, List.tail_cons] at h1
            exact h1
          rw [hxs]
          cases m2 with
          | nil =>
            simp [dcPass_cons_cons]
          | cons c m3 =>
            exact (dcSplitRight_cons_cons t b c m3).symm

/-- Taking the tail commutes with the right split. -/
lemma dcSplitRight_tail (t : ℝ) (l : List ℝ) :
    (dcSplitRight t l).tail = dcSplitRight t l.tail :=
  dcSplitRight_tail_aux t l.length l le_rfl

/-- The De Casteljau recurrence for any list of at least two values. -/
lemma dcEval_recurrence_len (u : ℝ) {l : List ℝ} (h : 2 ≤ l.length) :
    dcEval u l = dcEval u l.dropLast * (1 - u) + dcEval u l.tail * u := by
  cases l with
  | nil => simp at h
  | cons a X =>
    cases X with
    | nil => simp at h
    | cons b m => exact dcEval_recurrence u a b m

lemma dcSplitRight_eval_aux (t s : ℝ) : ∀ (n : ℕ) (l : List ℝ), l.length ≤ n →
    dcEval s (dcSplitRight t l) = dcEval (t + s * (1 - t)) l := by
  intro n
  induction n with
  | zero =>
    intro l h
    rw [List.length_eq_zero.mp (Nat.le_zero.mp h)]
    simp
  | succ n ih =>
    intro l h
    cases l with
    | nil => simp
    | cons a m =>
      cases m with
      | nil => simp
      | cons b m2 =>
        rw [dcSplitRight_cons_cons]
        have hlen2 : 2 ≤ (dcSplitRight t (dcPass t (a :: b :: m2))
            ++ [(a :: b :: m2).getLastD 0]).length := by
          rw [List.length_append, dcSplitRight_length]
          simp
        rw [dcEval_recurrence_len s hlen2, List.dropLast_concat, ← dcSplitRight_cons_cons,
          dcSplitRight_tail, List.tail_cons,
          ih (dcPass t (a :: b :: m2)) (by simp at h ⊢; omega),
          ih (b :: m2) (by simp at h ⊢; omega),
          dcPass_eq_lerpList,
          dcEval_lerpList (t + s * (1 - t)) t ((a :: b :: m2).dropLast).length _ _
            le_rfl (by simp),
          dcEval_recurrence (t + s * (1 - t)) a b m2]
        simp only [List.tail_cons]
        ring

/-- Scalar right-subdivision: evaluating the right split at `s` evaluates the
parent at `t + s * (1 - t)`. -/
lemma dcSplitRight_eval (t s : ℝ) (l : List ℝ) :
    dcEval s (dcSplitRight t l) = dcEval (t + s * (1 - t)) l :=
  dcSplitRight_eval_aux t s l.length l le_rfl

/-! ## Projection of the point-level curve operations onto one axis

Every point operation used by `Bezier::eval` / `Bezier::split` acts
componentwise, so applying a curve operation and then reading axis `i` is the
scalar operation on the axis-`i` components. -/

namespace Bezier

variable {D : ℕ}

@[simp] lemma eval_nil (t : ℝ) : eval (D := D) t [] = 0 := by rw [eval]

@[simp] lemma eval_singleton (t : ℝ) (p : Pt D) : eval t [p] = p := by rw [eval]

lemma eval_cons_cons (t : ℝ) (a b : Pt D) (m : List (Pt D)) :
    eval t (a :: b :: m) = eval t (pass t (a :: b :: m)) := by
  rw [eval]

@[simp] lemma splitLeft_nil (t : ℝ) : splitLeft (D := D) t [] = [] := by rw [splitLeft]

@[simp] lemma splitLeft_singleton (t : ℝ) (p : Pt D) : splitLeft t [p] = [p] := by
  rw [splitLeft]

lemma splitLeft_cons_cons (t : ℝ) (a b : Pt D) (m : List (Pt D)) :
    splitLeft t (a :: b :: m) = a :: splitLeft t (pass t (a :: b :: m)) := by
  rw [splitLeft]

@[simp] lemma splitRight_nil (t : ℝ) : splitRight (D := D) t [] = [] := by
  rw [splitRight]

@[simp] lemma splitRight_singleton (t : ℝ) (p : Pt D) : splitRight t [p] = [p] := by
  rw [splitRight]

lemma splitRight_cons_cons (t : ℝ) (a b : Pt D) (m : List (Pt D)) :
    splitRight t (a :: b :: m)
      = splitRight t (pass t (a :: b :: m)) ++ [(a :: b :: m).getLastD 0] := by
  rw [splitRight]

/-- Projecting a pass onto axis `i` is the scalar pass of the projections. -/
lemma pass_proj (t : ℝ) (i : Fin D) : ∀ ps : List (Pt D),
    (pass t ps).map (fun p => p i) = dcPass t (ps.map (fun p => p i)) := by
  intro ps
  induction ps with
  | nil => rfl
  | cons a m ih =>
    cases m with
    | nil => rfl
    | cons b m2 =>
      rw [pass_cons_cons, List.map_cons, ih]
      simp [dcPass_cons_cons]

lemma eval_proj_aux (t : ℝ) (i : Fin D) : ∀ (n : ℕ) (ps : List (Pt D)),
    ps.length ≤ n → eval t ps i = dcEval t (ps.map (fun p => p i)) := by
  intro n
  induction n with
  | zero =>
    intro ps h
    rw [List.length_eq_zero.mp (Nat.le_zero.mp h)]
    simp
  | succ n ih =>
    intro ps h
    cases ps with
    | nil => simp
    | cons a m =>
      cases m with
      | nil => simp
      | cons b m2 =>
        rw [eval_cons_cons, ih (pass t (a :: b :: m2)) (by simp at h ⊢; omega),
          pass_proj, List.map_cons, List.map_cons, dcEval_cons_cons]

/-- Projecting the point-level evaluation onto axis `i` is the scalar
De Casteljau evaluation of the projections. -/
lemma eval_proj (t : ℝ) (i : Fin D) (ps : List (Pt D)) :
    eval t ps i = dcEval t (ps.map (fun p => p i)) :=
  eval_proj_aux t i ps.length ps le_rfl

lemma splitLeft_proj_aux (t : ℝ) (i : Fin D) : ∀ (n : ℕ) (ps : List (Pt D)),
    ps.length ≤ n →
    (splitLeft t ps).map (fun p => p i) = dcSplitLeft t (ps.map (fun p => p i)) := by
  intro n
  induction n with
  | zero =>
    intro ps h
    rw [List.length_eq_zero.mp (Nat.le_zero.mp h)]
    simp
  | succ n ih =>
    intro ps h
    cases ps with
    | nil => simp
    | cons a m =>
      cases m with
      | nil => simp
      | cons b m2 =>
        rw [splitLeft_cons_cons, List.map_cons,
          ih (pass t (a :: b :: m2)) (by simp at h ⊢; omega),
          pass_proj, List.map_cons, List.map_cons, dcSplitLeft_cons_cons]

/-- The last point's axis `i` is the last of the projections. -/
lemma getLastD_proj (i : Fin D) : ∀ ps : List (Pt D),
    (ps.getLastD 0) i = (ps.map (fun p => p i)).getLastD 0 := by
  intro ps
  induction ps with
  | nil => rfl
  | cons a m ih =>
    cases m with
    | nil => rfl
    | cons b m2 => exact ih

lemma splitRight_proj_aux (t : ℝ) (i : Fin D) : ∀ (n : ℕ) (ps : List (Pt D)),
    ps.length ≤ n →
    (splitRight t ps).map (fun p => p i) = dcSplitRight t (ps.map (fun p => p i)) := by
  intro n
  induction n with
  | zero =>
    intro ps h
    rw [List.length_eq_zero.mp (Nat.le_zero.mp h)]
    simp
  | succ n ih =>
    intro ps h
    cases ps with
    | nil => simp
    | cons a m =>
      cases m with
      | nil => simp
      | cons b m2 =>
        rw [splitRight_cons_cons, List.map_append, List.map_singleton,
          ih (pass t (a :: b :: m2)) (by simp at h ⊢; omega),
          pass_proj, getLastD_proj, List.map_cons, List.map_cons,
          dcSplitRight_cons_cons]

lemma splitLeft_length_aux (t : ℝ) : ∀ (n : ℕ) (ps : List (Pt D)),
    ps.length ≤ n → (splitLeft t ps).length = ps.length := by
  intro n
  induction n with
  | zero =>
    intro ps h
    rw [List.length_eq_zero.mp (Nat.le_zero.mp h)]
    simp
  | succ n ih =>
    intro ps h
    cases ps with
    | nil => simp
    | cons a m =>
      cases m with
      | nil => simp
      | cons b m2 =>
        rw [splitLeft_cons_cons, List.length_cons,
          ih (pass t (a :: b :: m2)) (by simp at h ⊢; omega)]
        simp only [length_pass, List.length_cons]
        omega

lemma splitRight_length_aux (t : ℝ) : ∀ (n : ℕ) (ps : List (Pt D)),
    ps.length ≤ n → (splitRight t ps).length = ps.length := by
  intro n
  induction n with
  | zero =>
    intro ps h
    rw [List.length_eq_zero.mp (Nat.le_zero.mp h)]
    simp
  | succ n ih =>
    intro ps h
    cases ps with
    | nil => simp
    | cons a m =>
      cases m with
      | nil => simp
      | cons b m2 =>
        rw [splitRight_cons_cons, List.length_append,
          ih (pass t (a :: b :: m2)) (by simp at h ⊢; omega)]
        simp only [length_pass, List.length_cons, List.length_nil]
        omega

end Bezier

/-! ### Claim C1 — split subdivision equivalence -/

/-- C1: for every Bezier curve — generic with `N` control points, or cubic —
and every split parameter `t`, `split(t)` returns two curves with as many
control points (hence the same degree) as the parent such that, for every
`s`, the left curve evaluates at `s` to the parent's value at `s·t` and the
right curve evaluates at `s` to the parent's value at `t + s·(1-t)`, exactly,
over exact real arithmetic.  (For the cubic the point count is fixed by the
type; both cubic halves are compared through the closed-form `eval`.) -/
theorem c1_split_subdivision :
    (∀ (D : ℕ) (ps : List (Pt D)) (t s : ℝ),
      (Bezier.split t ps).1.length = ps.length
      ∧ (Bezier.split t ps).2.length = ps.length
      ∧ Bezier.eval s (Bezier.split t ps).1 = Bezier.eval (s * t) ps
      ∧ Bezier.eval s (Bezier.split t ps).2 = Bezier.eval (t + s * (1 - t)) ps)
    ∧ (∀ (D : ℕ) (b : CubicBezier D) (t s : ℝ),
      ((b.split t).1).eval s = b.eval (s * t)
      ∧ ((b.split t).2).eval s = b.eval (t + s * (1 - t))) := by
  constructor
  · intro D ps t s
    refine ⟨Bezier.splitLeft_length_aux t ps.length ps le_rfl,
      Bezier.splitRight_length_aux t ps.length ps le_rfl, ?_, ?_⟩
    · funext i
      simp only [Bezier.split]
      rw [Bezier.eval_proj, Bezier.eval_proj,
        Bezier.splitLeft_proj_aux t i ps.length ps le_rfl, dcSplitLeft_eval]
    · funext i
      simp only [Bezier.split]
      rw [Bezier.eval_proj, Bezier.eval_proj,
        Bezier.splitRight_proj_aux t i ps.length ps le_rfl, dcSplitRight_eval]
  · intro D b t s
    constructor <;>
      (funext i
       simp only [CubicBezier.split, CubicBezier.eval, Pt.add_apply, Pt.sub_apply,
         Pt.mulS_apply]
       ring)

/-- Witness for C2 (amended): for the `tinyBump` curve the returned bounds
bracket the candidate value `0` (the start coordinate, which is in the
candidate list). -/
theorem c2_witness :
    (CubicBezier.bounding_box tinyBump 0).1 ≤ 0
    ∧ (0 : ℝ) ≤ (CubicBezier.bounding_box tinyBump 0).2 := by
  have hmem : (0 : ℝ) ∈ CubicBezier.bbCandidates tinyBump 0 := by
    unfold CubicBezier.bbCandidates
    refine List.mem_append_right _ ?_
    simp [tinyBump]
  exact (c2_bounding_box_minmax tinyBump 0).2.2 0 hmem
